import Mathlib

/-!
# Verification of the client-side image persistence core

Shallow embedding of the persistent history store of the repository
(`unnamed/part_001`: IndexedDB-backed store, export/import engine),
its data model (`unnamed/part_000`, `types.ts`), and the object-URL
lifecycle tracker (`trackUrl` / `revokeUrl` / `revokeAllUrls` in the app
component).

Modelling conventions:
* JavaScript strings are modelled as lists of characters (`JSString`).
* A browser `Blob` is modelled as its byte content, a list of `Fin 256`.
* The IndexedDB object store (`keyPath: "id"`) is modelled as a list of
  records; `put` replaces the record with the same id when present and
  appends otherwise.  IndexedDB keeps records in key order while the model
  keeps insertion order; no verified property depends on the raw order of
  a bulk read (the code re-sorts every bulk read by timestamp).
* The host codec `FileReader.readAsDataURL` / `fetch(dataUrl).blob()` is
  modelled by an executable base64 data-URL encoder/decoder.
* `URL.createObjectURL` is modelled by a mint counter producing a fresh,
  non-empty handle string each time.
-/

namespace ImagePersistence

abbrev JSString := List Char

abbrev Byte := Fin 256

abbrev Blob := List Byte

/-- `ProductMetadata` from `types.ts`. -/
structure ProductMetadata where
  strainName : String
  fruitFlavor : String
  primaryColor : String
  secondaryColors : List String
  notes : String
deriving DecidableEq

/-- `GenerationSettings` from `types.ts` (the literal-union fields are
modelled as strings). -/
structure GenerationSettings where
  aspectRatio : String
  imageSize : String
  numberOfVariants : Nat
  additionalInstructions : String
  nyMode : Bool
deriving DecidableEq

/-- `GeneratedImage` from `types.ts`: `url` is the ephemeral display
handle, `blob` the durable binary payload (`undefined` = `none`). -/
structure GeneratedImage where
  id : String
  url : JSString
  blob : Option Blob
  timestamp : Int
deriving DecidableEq

/-- `HistoryItem` from `types.ts`; `sourceImage : Blob | string` becomes a
sum, `thumbnail?` an option. -/
structure HistoryItem where
  id : String
  timestamp : Int
  metadata : ProductMetadata
  sourceImage : Blob ⊕ JSString
  variants : List GeneratedImage
  settings : GenerationSettings
  thumbnail : Option String
deriving DecidableEq

/-- The IndexedDB `generations` object store. -/
abbrev Store := List HistoryItem

/-- The store keeps at most one record per id (IndexedDB guarantees this
through `keyPath: "id"`). -/
def NodupIds (s : Store) : Prop := (s.map HistoryItem.id).Nodup

instance (s : Store) : Decidable (NodupIds s) := by
  unfold NodupIds; infer_instance

/-! ## The binary/text codec

Models the host pair `FileReader.readAsDataURL` (blob → base64 data URL)
and `fetch(dataUrl).blob()` (data URL → blob), which `unnamed/part_001`
wraps as `blobToBase64` / `base64ToBlob`. -/

/-- The base64 alphabet. -/
def b64Table : List Char :=
  "ABCDEFGHIJKLMNOPQRSTUVWXYZabcdefghijklmnopqrstuvwxyz0123456789+/".toList

/-- The base64 digit for a sextet value. -/
def b64Char (n : Nat) : Char := b64Table.getD n 'A'

/-- The sextet value of a base64 digit. -/
def sextet (c : Char) : Option Nat := b64Table.findIdx? (fun d => d == c)

/-- Truncate a natural number to a byte. -/
def byteOf (n : Nat) : Byte := ⟨n % 256, by omega⟩

/-- base64-encode a byte list (with `=` padding). -/
def encodeBytes : List Byte → List Char
  | [] => []
  | [a] =>
      [b64Char (a.val / 4), b64Char (a.val % 4 * 16), '=', '=']
  | [a, b] =>
      [b64Char (a.val / 4), b64Char (a.val % 4 * 16 + b.val / 16),
       b64Char (b.val % 16 * 4), '=']
  | a :: b :: c :: rest =>
      b64Char (a.val / 4) :: b64Char (a.val % 4 * 16 + b.val / 16) ::
      b64Char (b.val % 16 * 4 + c.val / 64) :: b64Char (c.val % 64) ::
      encodeBytes rest

/-- Decode a final padded base64 quad (`xx==` or `xxx=`). -/
def decodePad (w x y : Char) : Option (List Byte) :=
  match sextet w, sextet x with
  | some a, some b =>
      if y = '=' then
        some [byteOf (a * 4 + b / 16)]
      else
        match sextet y with
        | some c => some [byteOf (a * 4 + b / 16), byteOf (b % 16 * 16 + c / 4)]
        | none => none
  | _, _ => none

/-- base64-decode a character list. -/
def decodeBytes : List Char → Option (List Byte)
  | [] => some []
  | w :: x :: y :: z :: rest =>
      if z = '=' then
        if rest = [] then decodePad w x y else none
      else
        match sextet w, sextet x, sextet y, sextet z, decodeBytes rest with
        | some a, some b, some c, some d, some tl =>
            some (byteOf (a * 4 + b / 16) :: byteOf (b % 16 * 16 + c / 4) ::
                  byteOf (c % 4 * 64 + d) :: tl)
        | _, _, _, _, _ => none
  | _ => none

/-- The data-URL header minted by `FileReader.readAsDataURL`; its only
comma is the final one. -/
def dataUrlHeader : List Char := "data:image/png;base64,".toList

/-- The `"data:"` scheme tag tested by `importData`'s
`startsWith('data:')`. -/
def dataHead : List Char := "data:".toList

/-- `blobToBase64` of `unnamed/part_001`: encode a blob as a base64 data
URL. -/
def blobToBase64 (b : Blob) : JSString := dataUrlHeader ++ encodeBytes b

/-- The payload after the first comma of a data URL. -/
def afterComma : List Char → List Char
  | [] => []
  | c :: rest => if c = ',' then rest else afterComma rest

/-- `base64ToBlob` of `unnamed/part_001` (via `fetch(dataUrl).blob()`):
decode the base64 payload after the header comma; `none` models a
rejected fetch. -/
def base64ToBlob (s : JSString) : Option Blob := decodeBytes (afterComma s)

theorem sextet_b64Char (n : Nat) (h : n < 64) : sextet (b64Char n) = some n := by
  have : ∀ k : Fin 64, sextet (b64Char k.val) = some k.val := by decide
  exact this ⟨n, h⟩

theorem b64Char_ne_pad (n : Nat) (h : n < 64) : b64Char n ≠ '=' := by
  have : ∀ k : Fin 64, b64Char k.val ≠ '=' := by decide
  exact this ⟨n, h⟩

theorem decode_encode : ∀ l : List Byte, decodeBytes (encodeBytes l) = some l
  | [] => rfl
  | [a] => by
      have ha : a.val < 256 := a.isLt
      have e1 : byteOf (a.val / 4 * 4 + a.val % 4 * 16 / 16) = a := by
        apply Fin.ext
        show (a.val / 4 * 4 + a.val % 4 * 16 / 16) % 256 = a.val
        omega
      simp only [encodeBytes, decodeBytes, decodePad,
        sextet_b64Char _ (by omega : a.val / 4 < 64),
        sextet_b64Char _ (by omega : a.val % 4 * 16 < 64), reduceIte, e1]
  | [a, b] => by
      have ha : a.val < 256 := a.isLt
      have hb : b.val < 256 := b.isLt
      have hy : b64Char (b.val % 16 * 4) ≠ '=' :=
        b64Char_ne_pad _ (by omega)
      have e1 : byteOf (a.val / 4 * 4 + (a.val % 4 * 16 + b.val / 16) / 16)
          = a := by
        apply Fin.ext
        show (a.val / 4 * 4 + (a.val % 4 * 16 + b.val / 16) / 16) % 256 = a.val
        omega
      have e2 : byteOf ((a.val % 4 * 16 + b.val / 16) % 16 * 16 +
          b.val % 16 * 4 / 4) = b := by
        apply Fin.ext
        show ((a.val % 4 * 16 + b.val / 16) % 16 * 16 + b.val % 16 * 4 / 4) % 256
            = b.val
        omega
      simp only [encodeBytes, decodeBytes, decodePad,
        sextet_b64Char _ (by omega : a.val / 4 < 64),
        sextet_b64Char _ (by omega : a.val % 4 * 16 + b.val / 16 < 64),
        if_neg hy,
        sextet_b64Char _ (by omega : b.val % 16 * 4 < 64), reduceIte, e1, e2]
  | a :: b :: c :: rest => by
      have ha : a.val < 256 := a.isLt
      have hb : b.val < 256 := b.isLt
      have hc : c.val < 256 := c.isLt
      have hz : b64Char (c.val % 64) ≠ '=' := b64Char_ne_pad _ (by omega)
      have ih := decode_encode rest
      have e1 : byteOf (a.val / 4 * 4 + (a.val % 4 * 16 + b.val / 16) / 16)
          = a := by
        apply Fin.ext
        show (a.val / 4 * 4 + (a.val % 4 * 16 + b.val / 16) / 16) % 256 = a.val
        omega
      have e2 : byteOf ((a.val % 4 * 16 + b.val / 16) % 16 * 16 +
          (b.val % 16 * 4 + c.val / 64) / 4) = b := by
        apply Fin.ext
        show ((a.val % 4 * 16 + b.val / 16) % 16 * 16 +
          (b.val % 16 * 4 + c.val / 64) / 4) % 256 = b.val
        omega
      have e3 : byteOf ((b.val % 16 * 4 + c.val / 64) % 4 * 64 + c.val % 64)
          = c := by
        apply Fin.ext
        show ((b.val % 16 * 4 + c.val / 64) % 4 * 64 + c.val % 64) % 256 = c.val
        omega
      simp only [encodeBytes, decodeBytes, if_neg hz,
        sextet_b64Char _ (by omega : a.val / 4 < 64),
        sextet_b64Char _ (by omega : a.val % 4 * 16 + b.val / 16 < 64),
        sextet_b64Char _ (by omega : b.val % 16 * 4 + c.val / 64 < 64),
        sextet_b64Char _ (by omega : c.val % 64 < 64), ih, e1, e2, e3]

theorem afterComma_header (l : List Char) :
    afterComma (dataUrlHeader ++ l) = l := by
  simp only [dataUrlHeader, String.toList, List.cons_append, List.nil_append,
    afterComma, Char.reduceEq, reduceIte, List.append_eq]

theorem base64ToBlob_blobToBase64 (b : Blob) :
    base64ToBlob (blobToBase64 b) = some b := by
  unfold base64ToBlob blobToBase64
  rw [afterComma_header]
  exact decode_encode b

theorem dataHead_isPrefixOf_blobToBase64 (b : Blob) :
    dataHead.isPrefixOf (blobToBase64 b) = true := by
  simp only [blobToBase64, dataUrlHeader, dataHead, String.toList,
    List.cons_append, List.nil_append, List.isPrefixOf, Char.reduceBEq,
    Bool.and_eq_true, Bool.true_and, List.isPrefixOf_nil_left]

theorem blobToBase64_ne_nil (b : Blob) : blobToBase64 b ≠ [] := by
  simp [blobToBase64, dataUrlHeader]

/-! ## The persistent store -/

/-- The `store.put` primitive of the `generations` object store
(`keyPath: "id"`): replace the record with the same id when present,
append otherwise. -/
def putStore (s : Store) (item : HistoryItem) : Store :=
  if s.any (fun r => r.id == item.id) then
    s.map (fun r => if r.id == item.id then item else r)
  else s ++ [item]

/-- Clear one variant's display handle, as in
`item.variants.map(v => ({ ...v, url: "" }))`. -/
def stripVariant (v : GeneratedImage) : GeneratedImage := { v with url := [] }

/-- The `storageItem` built by `saveHistoryItem` before writing: the
record with every variant's `url` cleared. -/
def stripItem (item : HistoryItem) : HistoryItem :=
  { item with variants := item.variants.map stripVariant }

/-- `saveHistoryItem` of `unnamed/part_001`: strip display handles, then
`store.put` the storage item. -/
def saveHistoryItem (s : Store) (item : HistoryItem) : Store :=
  putStore s
    { item with variants := item.variants.map (fun v => { v with url := [] }) }

/-- `deleteHistoryItem` of `unnamed/part_001`: `store.delete(id)` removes
the record under that key, succeeding whether or not it is present. -/
def deleteHistoryItem (s : Store) (i : String) : Store :=
  s.filter (fun r => r.id ≠ i)

/-- `clearAllHistory` of `unnamed/part_001`: `store.clear()`. -/
def clearAllHistory (_s : Store) : Store := []

/-- Models `URL.createObjectURL`: the `n`-th display handle minted by the
session; distinct counters give distinct, non-empty handles. -/
def mintURL (n : Nat) : JSString :=
  'b' :: 'l' :: 'o' :: 'b' :: ':' :: List.replicate n '0'

/-- Rehydration of one record's variants on read:
`url: v.blob ? URL.createObjectURL(v.blob) : ""`, threading the mint
counter. -/
def hydrateVariants : List GeneratedImage → Nat → List GeneratedImage × Nat
  | [], n => ([], n)
  | v :: vs, n =>
    match v.blob with
    | some _ =>
        let p := hydrateVariants vs (n + 1)
        ({ v with url := mintURL n } :: p.1, p.2)
    | none =>
        let p := hydrateVariants vs n
        ({ v with url := [] } :: p.1, p.2)

/-- Rehydrate every record of a bulk read. -/
def hydrateItems : List HistoryItem → Nat → List HistoryItem × Nat
  | [], n => ([], n)
  | it :: its, n =>
    let p := hydrateVariants it.variants n
    let q := hydrateItems its p.2
    ({ it with variants := p.1 } :: q.1, q.2)

/-- Insert into a list already sorted by descending timestamp. -/
def insertByTs (x : HistoryItem) : List HistoryItem → List HistoryItem
  | [] => [x]
  | y :: ys =>
    if x.timestamp ≤ y.timestamp then y :: insertByTs x ys else x :: y :: ys

/-- The `hydrated.sort((a, b) => b.timestamp - a.timestamp)` call: sort by
timestamp descending. -/
def sortByTsDesc (l : List HistoryItem) : List HistoryItem :=
  l.foldr insertByTs []

/-- `getAllHistory` of `unnamed/part_001`: bulk read, rehydrate each
variant (minting display handles from the session counter `n`), sort by
timestamp descending.  Returns the records and the advanced counter. -/
def getAllHistory (s : Store) (n : Nat) : List HistoryItem × Nat :=
  let p := hydrateItems s n
  (sortByTsDesc p.1, p.2)

/-! ## The export / import engine

`JSON.stringify` / `JSON.parse` are mutually inverse host functions on
the documents produced here, so the wire document is modelled as the
structured `ExportedData` value itself. -/

/-- One exported variant (the `variants` entries of `ExportedData`):
`blob` is the base64 data URL, or the empty string when the variant had
no blob. -/
structure ExpVariant where
  id : String
  blob : JSString
  timestamp : Int
deriving DecidableEq

/-- One exported record (the `items` entries of `ExportedData`). -/
structure ExpItem where
  id : String
  timestamp : Int
  metadata : ProductMetadata
  sourceImage : JSString
  variants : List ExpVariant
  settings : GenerationSettings
  thumbnail : Option String
deriving DecidableEq

/-- The `ExportedData` document of `unnamed/part_001`. -/
structure ExportedData where
  version : Int
  exportedAt : Int
  items : List ExpItem
deriving DecidableEq

/-- Serialize one variant for export:
`blob: v.blob ? await blobToBase64(v.blob) : ''`. -/
def exportVariant (v : GeneratedImage) : ExpVariant :=
  { id := v.id
    blob := match v.blob with
            | some b => blobToBase64 b
            | none => []
    timestamp := v.timestamp }

/-- Serialize one record for export: a binary `sourceImage` becomes a
data URL, a legacy string passes through. -/
def exportItem (item : HistoryItem) : ExpItem :=
  { id := item.id
    timestamp := item.timestamp
    metadata := item.metadata
    sourceImage := match item.sourceImage with
                   | Sum.inl b => blobToBase64 b
                   | Sum.inr s => s
    variants := item.variants.map exportVariant
    settings := item.settings
    thumbnail := item.thumbnail }

/-- `exportAllData` of `unnamed/part_001`: raw bulk read, serialize every
record, wrap with the schema version (`DB_VERSION = 1`) and the export
instant. -/
def exportAllData (s : Store) (now : Int) : ExportedData :=
  { version := 1, exportedAt := now, items := s.map exportItem }

/-- The result of `JSON.parse` on an import document, as far as
`importData` inspects it: the top-level `items` field is absent (or
falsy), present but not an array, or an array of items. -/
inductive ItemsField where
  | missing
  | notArray
  | arr (l : List ExpItem)
deriving DecidableEq

/-- A parsed import document. -/
structure ImportDoc where
  items : ItemsField
deriving DecidableEq

/-- Parsing an exported document returns its items array
(`JSON.parse ∘ JSON.stringify` is the identity on these documents). -/
def parseExported (d : ExportedData) : ImportDoc := { items := .arr d.items }

/-- The error taxonomy of the storage layer, as surfaced by the import
path: `invalidFormat` is the `"Invalid backup format"` throw,
`writeFailed` a rejected `store.put` transaction, `decodeFailed` a
rejected data-URL fetch. -/
inductive StoreError where
  | invalidFormat
  | writeFailed
  | decodeFailed
deriving DecidableEq

/-- Deserialize the variants of one imported item:
`blob: v.blob ? await base64ToBlob(v.blob) : undefined`, `url` cleared. -/
def decodeVariants : List ExpVariant → Option (List GeneratedImage)
  | [] => some []
  | v :: vs =>
    match (if v.blob ≠ [] then (base64ToBlob v.blob).map some else some none) with
    | none => none
    | some b =>
      match decodeVariants vs with
      | none => none
      | some rest =>
          some ({ id := v.id, url := [], blob := b, timestamp := v.timestamp }
                :: rest)

/-- Reconstruct one `HistoryItem` from an imported item: a
`data:`-prefixed `sourceImage` is decoded back to binary, anything else
passes through; `none` models a rejected decode. -/
def importItem (it : ExpItem) : Option HistoryItem :=
  match (if dataHead.isPrefixOf it.sourceImage then
           (base64ToBlob it.sourceImage).map Sum.inl
         else some (Sum.inr it.sourceImage)) with
  | none => none
  | some src =>
    match decodeVariants it.variants with
    | none => none
    | some vs =>
        some { id := it.id
               timestamp := it.timestamp
               metadata := it.metadata
               sourceImage := src
               variants := vs
               settings := it.settings
               thumbnail := it.thumbnail }

/-- The import loop: each item is decoded and `put` in its own
transaction; `failAt k` says whether the `k`-th write is rejected by the
host.  A rejected write aborts the whole import, keeping the records
already committed; on full success the count of imported records is
returned. -/
def importLoop (failAt : Nat → Bool) :
    Nat → Nat → List ExpItem → Store → Store × Except StoreError Nat
  | _, count, [], s => (s, Except.ok count)
  | k, count, it :: rest, s =>
    match importItem it with
    | none => (s, Except.error StoreError.decodeFailed)
    | some hi =>
        if failAt k then (s, Except.error StoreError.writeFailed)
        else importLoop failAt (k + 1) (count + 1) rest (putStore s hi)

/-- `importData` of `unnamed/part_001`: reject a document whose `items`
is missing or not an array before touching the store, otherwise run
the loop over the document's items. -/
def importData (failAt : Nat → Bool) (doc : ImportDoc) (s : Store) :
    Store × Except StoreError Nat :=
  match doc.items with
  | ItemsField.missing => (s, Except.error StoreError.invalidFormat)
  | ItemsField.notArray => (s, Except.error StoreError.invalidFormat)
  | ItemsField.arr l => importLoop failAt 0 0 l s

/-- The store contents after committing the decodable items of `its`. -/
def commitImports (s : Store) (its : List ExpItem) : Store :=
  (its.filterMap importItem).foldl putStore s

/-! ## The object-URL lifecycle tracker

`trackUrl` / `revokeUrl` / `revokeAllUrls` of the app component:
`activeUrlsRef` is a `Set<string>`; `released` logs every
`URL.revokeObjectURL` call issued to the host. -/

/-- The tracker state: the set of live tracked handles and the log of
handles released to the host. -/
structure UrlRegistry where
  tracked : List JSString
  released : List JSString
deriving DecidableEq

/-- `trackUrl`: `activeUrlsRef.current.add(url)` (a set add, idempotent). -/
def trackUrl (r : UrlRegistry) (u : JSString) : UrlRegistry :=
  if u ∈ r.tracked then r else { r with tracked := u :: r.tracked }

/-- `revokeUrl`: release and remove the handle only when tracked. -/
def revokeUrl (r : UrlRegistry) (u : JSString) : UrlRegistry :=
  if u ∈ r.tracked then
    { tracked := r.tracked.erase u, released := u :: r.released }
  else r

/-- `revokeAllUrls`: release every tracked handle, then clear the set. -/
def revokeAllUrls (r : UrlRegistry) : UrlRegistry :=
  { tracked := [], released := r.tracked ++ r.released }

/-- One call into the tracker. -/
inductive RegOp where
  | track (u : JSString)
  | revoke (u : JSString)
  | revokeAll
deriving DecidableEq

/-- Apply one tracker call. -/
def applyOp (r : UrlRegistry) : RegOp → UrlRegistry
  | RegOp.track u => trackUrl r u
  | RegOp.revoke u => revokeUrl r u
  | RegOp.revokeAll => revokeAllUrls r

/-- Run a sequence of tracker calls. -/
def runOps (r : UrlRegistry) (ops : List RegOp) : UrlRegistry :=
  ops.foldl applyOp r

/-- How many of the calls in `ops` are `track u`. -/
def countTracks (u : JSString) (ops : List RegOp) : Nat :=
  (ops.filter (fun o => o = RegOp.track u)).length

/-! ## A heap-level view of `saveHistoryItem`

To state that `Put` does not mutate its argument, the variant objects of
the caller's record are modelled as references into a mutable heap; the
spread `{ ...v, url: "" }` allocates fresh objects and leaves the
referenced ones untouched. -/

/-- The JavaScript object heap, restricted to `GeneratedImage` objects:
an allocation counter and the object stored at each reference. -/
structure JSHeap where
  next : Nat
  mem : Nat → GeneratedImage

/-- A caller-side `HistoryItem` whose `variants` are references to heap
objects. -/
structure HRecord where
  id : String
  timestamp : Int
  metadata : ProductMetadata
  sourceImage : Blob ⊕ JSString
  variants : List Nat
  settings : GenerationSettings
  thumbnail : Option String

/-- Allocate one fresh object. -/
def alloc (h : JSHeap) (g : GeneratedImage) : JSHeap × Nat :=
  ({ next := h.next + 1,
     mem := fun k => if k = h.next then g else h.mem k }, h.next)

/-- Allocate a list of fresh objects. -/
def allocList : JSHeap → List GeneratedImage → JSHeap × List Nat
  | h, [] => (h, [])
  | h, g :: gs =>
    let p := alloc h g
    let q := allocList p.1 gs
    (q.1, p.2 :: q.2)

/-- The record value a caller reads through its references. -/
def derefItem (h : JSHeap) (r : HRecord) : HistoryItem :=
  { id := r.id
    timestamp := r.timestamp
    metadata := r.metadata
    sourceImage := r.sourceImage
    variants := r.variants.map h.mem
    settings := r.settings
    thumbnail := r.thumbnail }

/-- `saveHistoryItem` at the heap level: build the `storageItem` by
allocating one fresh stripped copy per variant (`{ ...v, url: "" }`),
then `store.put` the value the new objects denote (IndexedDB stores a
structured clone). -/
def saveHistoryItemRef (db : Store) (h : JSHeap) (r : HRecord) :
    JSHeap × Store :=
  let stripped := r.variants.map (fun ref => { h.mem ref with url := [] })
  let p := allocList h stripped
  (p.1, putStore db
    { id := r.id
      timestamp := r.timestamp
      metadata := r.metadata
      sourceImage := r.sourceImage
      variants := stripped
      settings := r.settings
      thumbnail := r.thumbnail })

/-! ## Store lemmas -/

theorem putStore_eq_append (s : Store) (item : HistoryItem)
    (h : ∀ r ∈ s, r.id ≠ item.id) : putStore s item = s ++ [item] := by
  have hany : ¬(s.any (fun r => r.id == item.id) = true) := by
    simp only [List.any_eq_true, beq_iff_eq, not_exists, not_and]
    exact h
  unfold putStore
  rw [if_neg hany]

theorem putStore_cons_ne (r : HistoryItem) (s : Store) (item : HistoryItem)
    (h : r.id ≠ item.id) :
    putStore (r :: s) item = r :: putStore s item := by
  unfold putStore
  have hbeq : (r.id == item.id) = false := by simpa using h
  by_cases hany : s.any (fun x => x.id == item.id) = true
  · rw [if_pos, if_pos hany]
    · rw [List.map_cons]
      have : (if r.id == item.id then item else r) = r := by simp [hbeq]
      rw [this]
    · simp only [List.any_cons, hany, Bool.or_true]
  · rw [if_neg, if_neg hany]
    · simp
    · simp only [List.any_cons, hbeq, Bool.false_or]
      exact hany

theorem nodupIds_cons_head (r : HistoryItem) (s : Store)
    (h : NodupIds (r :: s)) : ∀ x ∈ s, x.id ≠ r.id := by
  intro x hx
  have := (List.nodup_cons.mp h).1
  intro he
  exact this (he ▸ List.mem_map_of_mem HistoryItem.id hx)

theorem nodupIds_cons_tail (r : HistoryItem) (s : Store)
    (h : NodupIds (r :: s)) : NodupIds s := (List.nodup_cons.mp h).2

theorem nodupIds_putStore (s : Store) (item : HistoryItem)
    (h : NodupIds s) : NodupIds (putStore s item) := by
  unfold putStore
  by_cases hany : s.any (fun r => r.id == item.id) = true
  · rw [if_pos hany]
    have hids : (s.map (fun r => if r.id == item.id then item else r)).map
        HistoryItem.id = s.map HistoryItem.id := by
      rw [List.map_map]
      apply List.map_congr_left
      intro r _
      by_cases hr : r.id = item.id
      · simp [Function.comp, hr]
      · simp [Function.comp, hr]
    unfold NodupIds
    rw [hids]
    exact h
  · rw [if_neg hany]
    unfold NodupIds
    rw [List.map_append, List.nodup_append]
    refine ⟨h, List.nodup_singleton _, ?_⟩
    intro a ha hb
    simp only [List.map_cons, List.map_nil, List.mem_singleton] at hb
    subst hb
    simp only [List.mem_map] at ha
    obtain ⟨r, hr, hrid⟩ := ha
    simp only [List.any_eq_true, beq_iff_eq] at hany
    exact hany ⟨r, hr, hrid⟩

theorem filter_putStore_self (s : Store) (item : HistoryItem)
    (h : NodupIds s) :
    (putStore s item).filter (fun r => r.id = item.id) = [item] := by
  induction s with
  | nil =>
      simp [putStore, List.filter]
  | cons r rest ih =>
      by_cases hr : r.id = item.id
      · have hbeq : (r.id == item.id) = true := by simpa using hr
        have hany : ((r :: rest).any fun x => x.id == item.id) = true := by
          simp [List.any_cons, hbeq]
        have hrest : ∀ x ∈ rest, x.id ≠ item.id := fun x hx he =>
          nodupIds_cons_head r rest h x hx (he.trans hr.symm)
        unfold putStore
        rw [if_pos hany, List.map_cons]
        have hhead : (if r.id == item.id then item else r) = item := by
          simp [hbeq]
        rw [hhead]
        have hmap : rest.map (fun x => if x.id == item.id then item else x)
            = rest := by
          conv_rhs => rw [← List.map_id rest]
          apply List.map_congr_left
          intro x hx
          have hb : (x.id == item.id) = false := by simpa using hrest x hx
          simp [hb]
        rw [hmap, List.filter_cons]
        have : decide (item.id = item.id) = true := by simp
        rw [if_pos this]
        have hnil : rest.filter (fun x => decide (x.id = item.id)) = [] := by
          rw [List.filter_eq_nil_iff]
          intro x hx
          simpa using hrest x hx
        rw [hnil]
      · rw [putStore_cons_ne r rest item hr]
        rw [List.filter_cons]
        have : ¬ decide (r.id = item.id) = true := by simpa using hr
        rw [if_neg this]
        exact ih (nodupIds_cons_tail r rest h)

theorem foldl_putStore_append (l : List HistoryItem) :
    ∀ acc : Store, NodupIds (acc ++ l) →
      l.foldl putStore acc = acc ++ l := by
  induction l with
  | nil => intro acc _; simp
  | cons a rest ih =>
      intro acc hnd
      have ha : ∀ r ∈ acc, r.id ≠ a.id := by
        intro r hr he
        unfold NodupIds at hnd
        rw [List.map_append, List.nodup_append] at hnd
        exact hnd.2.2 (List.mem_map_of_mem _ hr) (by simp [he])
      have hstep : putStore acc a = acc ++ [a] := putStore_eq_append acc a ha
      have : NodupIds ((acc ++ [a]) ++ rest) := by
        unfold NodupIds at hnd ⊢
        rw [List.append_assoc, List.singleton_append]
        exact hnd
      calc (a :: rest).foldl putStore acc
          = rest.foldl putStore (putStore acc a) := rfl
        _ = rest.foldl putStore (acc ++ [a]) := by rw [hstep]
        _ = (acc ++ [a]) ++ rest := ih (acc ++ [a]) this
        _ = acc ++ a :: rest := by simp

theorem eq_of_mem_of_same_id (s : Store) (h : NodupIds s)
    (x y : HistoryItem) (hx : x ∈ s) (hy : y ∈ s) (hid : x.id = y.id) :
    x = y :=
  List.inj_on_of_nodup_map h hx hy hid

theorem delete_erase (s : Store) (i : String) (r : HistoryItem)
    (h : NodupIds s) (hr : r ∈ s) (hid : r.id = i) :
    deleteHistoryItem s i = s.erase r := by
  induction s with
  | nil => cases hr
  | cons a rest ih =>
      by_cases hai : a.id = i
      · have hra : r = a := by
          rcases List.mem_cons.mp hr with h1 | h1
          · exact h1
          · exact absurd (hid.trans hai.symm)
              (nodupIds_cons_head a rest h r h1)
        subst hra
        unfold deleteHistoryItem
        rw [List.filter_cons]
        have : ¬ decide (r.id ≠ i) = true := by simp [hid]
        rw [if_neg this, List.erase_cons_head]
        rw [List.filter_eq_self]
        intro x hx
        simp only [ne_eq, decide_eq_true_eq]
        intro he
        exact nodupIds_cons_head r rest h x hx (he.trans hid.symm)
      · have hrrest : r ∈ rest := by
          rcases List.mem_cons.mp hr with h1 | h1
          · exact absurd (h1 ▸ hid) hai
          · exact h1
        have hne : ¬(a == r) = true := by
          simp only [beq_iff_eq]
          intro he
          apply hai
          rw [he]
          exact hid
        unfold deleteHistoryItem
        rw [List.filter_cons]
        have : decide (a.id ≠ i) = true := by simpa using hai
        rw [if_pos this, List.erase_cons_tail hne]
        exact congrArg (a :: ·) (ih (nodupIds_cons_tail a rest h) hrrest)

/-! ## Sorting lemmas -/

theorem mem_insertByTs (x z : HistoryItem) :
    ∀ l : List HistoryItem, z ∈ insertByTs x l ↔ z = x ∨ z ∈ l := by
  intro l
  induction l with
  | nil => simp [insertByTs]
  | cons y ys ih =>
      unfold insertByTs
      by_cases hc : x.timestamp ≤ y.timestamp
      · rw [if_pos hc]
        simp only [List.mem_cons, ih]
        tauto
      · rw [if_neg hc]
        simp only [List.mem_cons]

theorem pairwise_insertByTs (x : HistoryItem) (l : List HistoryItem)
    (h : List.Pairwise (fun a b => b.timestamp ≤ a.timestamp) l) :
    List.Pairwise (fun a b => b.timestamp ≤ a.timestamp) (insertByTs x l) := by
  induction l with
  | nil => simp [insertByTs]
  | cons y ys ih =>
      rw [List.pairwise_cons] at h
      unfold insertByTs
      by_cases hc : x.timestamp ≤ y.timestamp
      · rw [if_pos hc, List.pairwise_cons]
        constructor
        · intro z hz
          rcases (mem_insertByTs x z ys).mp hz with hz | hz
          · rw [hz]; exact hc
          · exact h.1 z hz
        · exact ih h.2
      · rw [if_neg hc, List.pairwise_cons]
        constructor
        · intro z hz
          rcases List.mem_cons.mp hz with hz | hz
          · rw [hz]; omega
          · have := h.1 z hz
            omega
        · rw [List.pairwise_cons]
          exact h

theorem pairwise_sortByTsDesc (l : List HistoryItem) :
    List.Pairwise (fun a b => b.timestamp ≤ a.timestamp) (sortByTsDesc l) := by
  induction l with
  | nil => simp [sortByTsDesc]
  | cons x xs ih => exact pairwise_insertByTs x _ ih

theorem mem_sortByTsDesc (z : HistoryItem) (l : List HistoryItem) :
    z ∈ sortByTsDesc l ↔ z ∈ l := by
  induction l with
  | nil => simp [sortByTsDesc]
  | cons x xs ih =>
      show z ∈ insertByTs x (sortByTsDesc xs) ↔ _
      rw [mem_insertByTs, ih, List.mem_cons]

/-! ## Rehydration lemmas -/

theorem mintURL_ne_nil (n : Nat) : mintURL n ≠ [] := by simp [mintURL]

theorem hydrateVariants_counter_le (vs : List GeneratedImage) :
    ∀ n : Nat, n ≤ (hydrateVariants vs n).2 := by
  induction vs with
  | nil => intro n; simp [hydrateVariants]
  | cons v rest ih =>
      intro n
      cases hb : v.blob with
      | some b =>
          have h : n + 1 ≤ (hydrateVariants rest (n + 1)).2 := ih (n + 1)
          have he : (hydrateVariants (v :: rest) n).2
              = (hydrateVariants rest (n + 1)).2 := by
            simp only [hydrateVariants]
            rw [hb]
          rw [he]
          omega
      | none =>
          have he : (hydrateVariants (v :: rest) n).2
              = (hydrateVariants rest n).2 := by
            simp only [hydrateVariants]
            rw [hb]
          rw [he]
          exact ih n

theorem hydrateVariants_cons_some (v : GeneratedImage) (b : Blob)
    (rest : List GeneratedImage) (n : Nat) (hb : v.blob = some b) :
    hydrateVariants (v :: rest) n =
      ({ v with url := mintURL n } :: (hydrateVariants rest (n + 1)).1,
       (hydrateVariants rest (n + 1)).2) := by
  simp only [hydrateVariants]
  rw [hb]

theorem hydrateVariants_cons_none (v : GeneratedImage)
    (rest : List GeneratedImage) (n : Nat) (hb : v.blob = none) :
    hydrateVariants (v :: rest) n =
      ({ v with url := [] } :: (hydrateVariants rest n).1,
       (hydrateVariants rest n).2) := by
  simp only [hydrateVariants]
  rw [hb]

theorem hydrateVariants_spec (vs : List GeneratedImage) :
    ∀ (n : Nat), ∀ v ∈ (hydrateVariants vs n).1,
      (v.blob = none → v.url = []) ∧
      (v.blob.isSome = true → ∃ k, n ≤ k ∧ v.url = mintURL k) := by
  induction vs with
  | nil => intro n v hv; simp [hydrateVariants] at hv
  | cons w rest ih =>
      intro n v hv
      unfold hydrateVariants at hv
      cases hw : w.blob with
      | some b =>
          rw [hw] at hv
          simp only [List.mem_cons] at hv
          rcases hv with hv | hv
          · subst hv
            constructor
            · intro hnone; simp at hnone
            · intro _; exact ⟨n, le_refl n, rfl⟩
          · have := ih (n + 1) v hv
            refine ⟨this.1, fun hs => ?_⟩
            obtain ⟨k, hk, hu⟩ := this.2 hs
            exact ⟨k, by omega, hu⟩
      | none =>
          rw [hw] at hv
          simp only [List.mem_cons] at hv
          rcases hv with hv | hv
          · subst hv
            constructor
            · intro _; rfl
            · intro hs; simp at hs
          · exact ih n v hv

theorem hydrateItems_counter_le (its : List HistoryItem) :
    ∀ n : Nat, n ≤ (hydrateItems its n).2 := by
  induction its with
  | nil => intro n; simp [hydrateItems]
  | cons it rest ih =>
      intro n
      show n ≤ (hydrateItems rest (hydrateVariants it.variants n).2).2
      have h1 := hydrateVariants_counter_le it.variants n
      have h2 := ih (hydrateVariants it.variants n).2
      omega

theorem hydrateItems_spec (its : List HistoryItem) :
    ∀ (n : Nat), ∀ it ∈ (hydrateItems its n).1, ∀ v ∈ it.variants,
      (v.blob = none → v.url = []) ∧
      (v.blob.isSome = true → ∃ k, n ≤ k ∧ v.url = mintURL k) := by
  induction its with
  | nil => intro n it hit; simp [hydrateItems] at hit
  | cons w rest ih =>
      intro n it hit v hv
      unfold hydrateItems at hit
      simp only [List.mem_cons] at hit
      rcases hit with hit | hit
      · subst hit
        exact hydrateVariants_spec w.variants n v hv
      · have hle := hydrateVariants_counter_le w.variants n
        have := ih (hydrateVariants w.variants n).2 it hit v hv
        refine ⟨this.1, fun hs => ?_⟩
        obtain ⟨k, hk, hu⟩ := this.2 hs
        exact ⟨k, by omega, hu⟩

/-! ## Export / import round-trip lemmas -/

theorem decodeVariants_map_export (vs : List GeneratedImage) :
    decodeVariants (vs.map exportVariant) = some (vs.map stripVariant) := by
  induction vs with
  | nil => rfl
  | cons v rest ih =>
      cases hb : v.blob with
      | some b =>
          have hw : (exportVariant v).blob = blobToBase64 b := by
            simp [exportVariant, hb]
          have hscrut : (if (exportVariant v).blob ≠ [] then
                (base64ToBlob (exportVariant v).blob).map some
              else some none) = some (some b) := by
            rw [hw, if_pos (blobToBase64_ne_nil b), base64ToBlob_blobToBase64,
              Option.map_some']
          simp only [List.map_cons, decodeVariants, hscrut, ih]
          simp [stripVariant, exportVariant, hb]
      | none =>
          have hw : (exportVariant v).blob = [] := by
            simp [exportVariant, hb]
          have hscrut : (if (exportVariant v).blob ≠ [] then
                (base64ToBlob (exportVariant v).blob).map some
              else some none) = some none := by
            rw [hw]
            simp
          simp only [List.map_cons, decodeVariants, hscrut, ih]
          simp [stripVariant, exportVariant, hb]

theorem importItem_exportItem (a : HistoryItem)
    (h : a.sourceImage.isLeft = true) :
    importItem (exportItem a) = some (stripItem a) := by
  cases hs : a.sourceImage with
  | inr s => rw [hs] at h; simp at h
  | inl b =>
      have h1 : (exportItem a).sourceImage = blobToBase64 b := by
        simp [exportItem, hs]
      have h2 : (exportItem a).variants = a.variants.map exportVariant := rfl
      have hsrc : (if dataHead.isPrefixOf (exportItem a).sourceImage then
            (base64ToBlob (exportItem a).sourceImage).map Sum.inl
          else some (Sum.inr (exportItem a).sourceImage)) =
          some (Sum.inl b) := by
        rw [h1, if_pos (dataHead_isPrefixOf_blobToBase64 b),
          base64ToBlob_blobToBase64, Option.map_some']
      simp only [importItem, hsrc, h2, decodeVariants_map_export]
      simp [stripItem, exportItem, hs]

theorem importLoop_ok (failAt : Nat → Bool) :
    ∀ (its : List ExpItem) (k count : Nat) (s : Store),
      (∀ it ∈ its, (importItem it).isSome = true) →
      (∀ i, i < its.length → failAt (k + i) = false) →
      importLoop failAt k count its s =
        (commitImports s its, Except.ok (count + its.length)) := by
  intro its
  induction its with
  | nil =>
      intro k count s _ _
      simp [importLoop, commitImports]
  | cons it rest ih =>
      intro k count s hdec hfail
      obtain ⟨hi, heq⟩ := Option.isSome_iff_exists.mp
        (hdec it (List.mem_cons_self it rest))
      have hk : failAt k = false := by
        have := hfail 0 (by simp)
        simpa using this
      have hrest : ∀ i, i < rest.length → failAt (k + 1 + i) = false := by
        intro i hilt
        have := hfail (i + 1) (by simp; omega)
        rw [← this]
        congr 1
        omega
      simp only [importLoop, heq, hk, Bool.false_eq_true, reduceIte]
      rw [ih (k + 1) (count + 1) (putStore s hi)
        (fun x hx => hdec x (List.mem_cons_of_mem it hx)) hrest]
      have hcommit : commitImports s (it :: rest)
          = commitImports (putStore s hi) rest := by
        unfold commitImports
        rw [List.filterMap_cons, heq]
        rfl
      rw [hcommit]
      have : count + (it :: rest).length = count + 1 + rest.length := by
        simp [List.length_cons]
        omega
      rw [this]

theorem importLoop_fail (failAt : Nat → Bool) :
    ∀ (its : List ExpItem) (k count : Nat) (s : Store) (j : Nat),
      (∀ it ∈ its, (importItem it).isSome = true) →
      j < its.length → failAt (k + j) = true →
      (∀ i, i < j → failAt (k + i) = false) →
      importLoop failAt k count its s =
        (commitImports s (its.take j), Except.error StoreError.writeFailed) := by
  intro its
  induction its with
  | nil =>
      intro k count s j _ hj _ _
      simp at hj
  | cons it rest ih =>
      intro k count s j hdec hj hfj hbefore
      obtain ⟨hi, heq⟩ := Option.isSome_iff_exists.mp
        (hdec it (List.mem_cons_self it rest))
      cases j with
      | zero =>
          have hk : failAt k = true := by simpa using hfj
          simp only [importLoop, heq, hk, reduceIte, List.take_zero]
          simp [commitImports]
      | succ j' =>
          have hk : failAt k = false := by
            have := hbefore 0 (by omega)
            simpa using this
          have hfj' : failAt (k + 1 + j') = true := by
            rw [← hfj]
            congr 1
            omega
          have hbefore' : ∀ i, i < j' → failAt (k + 1 + i) = false := by
            intro i hilt
            have := hbefore (i + 1) (by omega)
            rw [← this]
            congr 1
            omega
          have hj' : j' < rest.length := by
            simp only [List.length_cons] at hj
            omega
          simp only [importLoop, heq, hk, Bool.false_eq_true, reduceIte]
          rw [ih (k + 1) (count + 1) (putStore s hi) j'
            (fun x hx => hdec x (List.mem_cons_of_mem it hx)) hj' hfj' hbefore']
          have hcommit : commitImports s ((it :: rest).take (j' + 1))
              = commitImports (putStore s hi) (rest.take j') := by
            unfold commitImports
            rw [List.take_succ_cons, List.filterMap_cons, heq]
            rfl
          rw [hcommit]

/-! ## Tracker lemmas -/

theorem applyOp_count_bound (u : JSString) (r : UrlRegistry) (op : RegOp) :
    (applyOp r op).released.count u + (applyOp r op).tracked.count u ≤
      r.released.count u + r.tracked.count u +
        (if op = RegOp.track u then 1 else 0) := by
  cases op with
  | track v =>
      simp only [applyOp, trackUrl]
      by_cases hv : v ∈ r.tracked
      · rw [if_pos hv]
        split <;> omega
      · rw [if_neg hv]
        by_cases hvu : v = u
        · subst hvu
          simp only [List.count_cons_self, RegOp.track.injEq, reduceIte]
          omega
        · have h1 : List.count u (v :: r.tracked) = r.tracked.count u :=
            List.count_cons_of_ne (fun he => hvu he.symm) _
          simp only [h1]
          split <;> omega
  | revoke v =>
      have hop : (if RegOp.revoke v = RegOp.track u then 1 else 0) = 0 := by
        simp
      rw [hop]
      simp only [applyOp, revokeUrl]
      by_cases hv : v ∈ r.tracked
      · rw [if_pos hv]
        by_cases hvu : v = u
        · rw [hvu] at hv ⊢
          have h1 : List.count u (u :: r.released) = r.released.count u + 1 :=
            List.count_cons_self u _
          have h2 : List.count u (r.tracked.erase u) = r.tracked.count u - 1 :=
            List.count_erase_self u _
          have h3 : 0 < r.tracked.count u := List.count_pos_iff.mpr hv
          simp only [h1, h2]
          omega
        · have h1 : List.count u (v :: r.released) = r.released.count u :=
            List.count_cons_of_ne (fun he => hvu he.symm) _
          have h2 : List.count u (r.tracked.erase v) = r.tracked.count u :=
            List.count_erase_of_ne (fun he => hvu he.symm) _
          simp only [h1, h2]
          omega
      · rw [if_neg hv]
        omega
  | revokeAll =>
      have hop : (if RegOp.revokeAll = RegOp.track u then 1 else 0) = 0 := by
        simp
      rw [hop]
      simp only [applyOp, revokeAllUrls, List.count_append, List.count_nil]
      omega

theorem countTracks_cons (u : JSString) (op : RegOp) (rest : List RegOp) :
    countTracks u (op :: rest) =
      (if op = RegOp.track u then 1 else 0) + countTracks u rest := by
  unfold countTracks
  rw [List.filter_cons]
  by_cases hop : op = RegOp.track u
  · rw [if_pos (by simpa using hop), if_pos hop, List.length_cons]
    omega
  · rw [if_neg (by simpa using hop), if_neg hop]
    omega

theorem runOps_count_bound (u : JSString) :
    ∀ (ops : List RegOp) (r : UrlRegistry),
      (runOps r ops).released.count u + (runOps r ops).tracked.count u ≤
        r.released.count u + r.tracked.count u + countTracks u ops := by
  intro ops
  induction ops with
  | nil =>
      intro r
      simp [runOps, countTracks]
  | cons op rest ih =>
      intro r
      have h1 := applyOp_count_bound u r op
      have h2 := ih (applyOp r op)
      have h3 : runOps r (op :: rest) = runOps (applyOp r op) rest := rfl
      rw [h3, countTracks_cons]
      omega

theorem runOps_append_revokeAll (r : UrlRegistry) (ops : List RegOp) :
    (runOps r (ops ++ [RegOp.revokeAll])).tracked = [] := by
  unfold runOps
  rw [List.foldl_append]
  rfl

/-! ## Heap lemmas -/

theorem allocList_frame :
    ∀ (gs : List GeneratedImage) (h : JSHeap) (k : Nat),
      k < h.next → (allocList h gs).1.mem k = h.mem k := by
  intro gs
  induction gs with
  | nil => intro h k _; rfl
  | cons g rest ih =>
      intro h k hk
      have h1 : (alloc h g).1.next = h.next + 1 := rfl
      have h2 : (alloc h g).1.mem k = h.mem k := by
        show (if k = h.next then g else h.mem k) = h.mem k
        rw [if_neg (by omega)]
      calc (allocList h (g :: rest)).1.mem k
          = (allocList (alloc h g).1 rest).1.mem k := rfl
        _ = (alloc h g).1.mem k := ih _ k (by rw [h1]; omega)
        _ = h.mem k := h2

/-- If `f` is `some ∘ g` on every element of `l`, then `filterMap f`
is `map g`. -/
theorem filterMap_congr_some {α β : Type} (f : α → Option β) (g : α → β) :
    ∀ l : List α, (∀ a ∈ l, f a = some (g a)) → l.filterMap f = l.map g := by
  intro l
  induction l with
  | nil => intro _; rfl
  | cons a rest ih =>
      intro h
      rw [List.filterMap_cons, h a (List.mem_cons_self a rest), List.map_cons,
        ih (fun x hx => h x (List.mem_cons_of_mem a hx))]

/-! ## Concrete data used by the witnesses -/

def demoMeta : ProductMetadata :=
  { strainName := "Blue Dream", fruitFlavor := "blueberry",
    primaryColor := "#3B82F6", secondaryColors := ["#F97316"],
    notes := "calming" }

def demoSettings : GenerationSettings :=
  { aspectRatio := "1:1", imageSize := "1K", numberOfVariants := 1,
    additionalInstructions := "", nyMode := false }

def demoRecordC1 : HistoryItem :=
  { id := "r1", timestamp := 10, metadata := demoMeta,
    sourceImage := Sum.inl [72, 101],
    variants :=
      [{ id := "v1", url := ['x'], blob := some [255], timestamp := 3 },
       { id := "v2", url := [], blob := none, timestamp := 4 }],
    settings := demoSettings, thumbnail := some "thumb" }

/-! ## Claims -/

/-- C1: for every store state (with unique ids and binary source images,
as the data model requires), `Import` applied to the output of `Export`
commits one record per exported record, restoring byte-identical binary
payloads for every `sourceImage` and every variant `blob`, passing
metadata and settings through structurally unchanged (the imported store
is exactly the original records with display handles stripped), and
returns the count of records imported. -/
theorem export_import_roundtrip (s : Store) (now : Int)
    (hids : NodupIds s)
    (hsrc : ∀ item ∈ s, item.sourceImage.isLeft = true) :
    importData (fun _ => false) (parseExported (exportAllData s now)) [] =
      (s.map stripItem, Except.ok s.length) := by
  have hdec : ∀ it ∈ s.map exportItem, (importItem it).isSome = true := by
    intro it hit
    obtain ⟨a, ha, rfl⟩ := List.mem_map.mp hit
    rw [importItem_exportItem a (hsrc a ha)]
    rfl
  have hrun := importLoop_ok (fun _ => false) (s.map exportItem) 0 0 []
    hdec (fun i _ => rfl)
  show importLoop (fun _ => false) 0 0 (s.map exportItem) [] = _
  rw [hrun]
  have hfm : (s.map exportItem).filterMap importItem = s.map stripItem := by
    rw [List.filterMap_map]
    apply filterMap_congr_some
    intro a ha
    exact importItem_exportItem a (hsrc a ha)
  have hnd : NodupIds (s.map stripItem) := by
    unfold NodupIds
    rw [List.map_map]
    have he : (HistoryItem.id ∘ stripItem) = HistoryItem.id := rfl
    rw [he]
    exact hids
  have hcommit : commitImports [] (s.map exportItem) = s.map stripItem := by
    unfold commitImports
    rw [hfm]
    have := foldl_putStore_append (s.map stripItem) [] (by simpa using hnd)
    simpa using this
  rw [hcommit]
  simp

theorem export_import_roundtrip_witness :
    NodupIds [demoRecordC1] ∧
    (∀ item ∈ [demoRecordC1], item.sourceImage.isLeft = true) ∧
    importData (fun _ => false)
        (parseExported (exportAllData [demoRecordC1] 99)) [] =
      ([demoRecordC1].map stripItem, Except.ok 1) :=
  ⟨by decide, by decide,
   export_import_roundtrip [demoRecordC1] 99 (by decide) (by decide)⟩

def demoRecordC2 : HistoryItem :=
  { id := "r2", timestamp := 20, metadata := demoMeta,
    sourceImage := Sum.inl [1, 2, 3],
    variants :=
      [{ id := "w1", url := ['b', 'l', 'o', 'b', ':', 'a'],
         blob := some [9], timestamp := 5 },
       { id := "w2", url := ['b', 'l', 'o', 'b', ':', 'c'],
         blob := none, timestamp := 6 }],
    settings := demoSettings, thumbnail := none }

/-- C2: `Put` writes the record with every `variants[].url` cleared to
the empty string, regardless of the url values on the input record: the
representation handed to `store.put` is `stripItem item`, and every
variant of it has an empty `url`. -/
theorem put_strips_variant_urls (s : Store) (item : HistoryItem) :
    saveHistoryItem s item = putStore s (stripItem item) ∧
    ∀ v ∈ (stripItem item).variants, v.url = [] := by
  constructor
  · rfl
  · intro v hv
    obtain ⟨w, _, rfl⟩ := List.mem_map.mp hv
    rfl

theorem put_strips_variant_urls_witness :
    saveHistoryItem [] demoRecordC2 = putStore [] (stripItem demoRecordC2) ∧
    ∀ v ∈ (stripItem demoRecordC2).variants, v.url = [] :=
  put_strips_variant_urls [] demoRecordC2

def demoRecordC3 : HistoryItem :=
  { id := "r3", timestamp := 7, metadata := demoMeta,
    sourceImage := Sum.inr [],
    variants :=
      [{ id := "vb", url := [], blob := some [1], timestamp := 1 },
       { id := "vn", url := ['o'], blob := none, timestamp := 2 }],
    settings := demoSettings, thumbnail := none }

def hydratedC3 : HistoryItem :=
  { demoRecordC3 with variants :=
      [{ id := "vb", url := mintURL 0, blob := some [1], timestamp := 1 },
       { id := "vn", url := [], blob := none, timestamp := 2 }] }

def hydVariantC3 : GeneratedImage :=
  { id := "vb", url := mintURL 0, blob := some [1], timestamp := 1 }

/-- C3: every record returned by `GetAll` is rehydrated: a variant with a
stored blob carries a freshly minted (counter at or beyond the session
counter), non-empty display-handle url, and a variant without a blob
carries an empty url. -/
theorem getAll_rehydrates (s : Store) (n : Nat) (item : HistoryItem)
    (hit : item ∈ (getAllHistory s n).1) (v : GeneratedImage)
    (hv : v ∈ item.variants) :
    (v.blob = none → v.url = []) ∧
    (v.blob.isSome = true →
      v.url ≠ [] ∧ ∃ k, n ≤ k ∧ v.url = mintURL k) := by
  have hit' : item ∈ (hydrateItems s n).1 :=
    (mem_sortByTsDesc item (hydrateItems s n).1).mp hit
  have h := hydrateItems_spec s n item hit' v hv
  refine ⟨h.1, fun hs => ?_⟩
  obtain ⟨k, hk, hu⟩ := h.2 hs
  refine ⟨?_, k, hk, hu⟩
  rw [hu]
  exact mintURL_ne_nil k

theorem getAll_rehydrates_witness :
    (hydratedC3 ∈ (getAllHistory [demoRecordC3] 0).1) ∧
    (hydVariantC3 ∈ hydratedC3.variants) ∧
    ((hydVariantC3.blob = none → hydVariantC3.url = []) ∧
     (hydVariantC3.blob.isSome = true →
       hydVariantC3.url ≠ [] ∧ ∃ k, 0 ≤ k ∧ hydVariantC3.url = mintURL k)) :=
  ⟨by decide, by decide,
   getAll_rehydrates [demoRecordC3] 0 hydratedC3 (by decide) hydVariantC3
     (by decide)⟩

def recATs : HistoryItem :=
  { id := "A", timestamp := 100, metadata := demoMeta,
    sourceImage := Sum.inr [], variants := [],
    settings := demoSettings, thumbnail := none }

def recBTs : HistoryItem :=
  { id := "B", timestamp := 200, metadata := demoMeta,
    sourceImage := Sum.inr [], variants := [],
    settings := demoSettings, thumbnail := none }

/-- C4: the list returned by `GetAll` is sorted non-increasing by
timestamp; in particular, for a store holding exactly A (timestamp 100)
and B (timestamp 200), `GetAll` returns `[B, A]`. -/
theorem getAll_sorted_desc :
    (∀ (s : Store) (n : Nat),
      List.Pairwise (fun a b => b.timestamp ≤ a.timestamp)
        (getAllHistory s n).1) ∧
    (getAllHistory [recATs, recBTs] 0).1.map HistoryItem.id = ["B", "A"] := by
  constructor
  · intro s n
    exact pairwise_sortByTsDesc _
  · decide

/-- C5: ids stay unique across the store under `Put`, and `Put` with an
existing id replaces: two `Put`s with the same id leave exactly one
stored record under that id, reflecting the second write (in its stored,
url-stripped form). -/
theorem put_replaces_same_id (s : Store) (i1 i2 : HistoryItem)
    (hids : NodupIds s) (_hid : i1.id = i2.id) :
    (∀ j : HistoryItem, NodupIds (saveHistoryItem s j)) ∧
    (saveHistoryItem (saveHistoryItem s i1) i2).filter
        (fun r => r.id = i2.id) = [stripItem i2] := by
  constructor
  · intro j
    exact nodupIds_putStore s (stripItem j) hids
  · have h1 : NodupIds (saveHistoryItem s i1) :=
      nodupIds_putStore s (stripItem i1) hids
    exact filter_putStore_self (saveHistoryItem s i1) (stripItem i2) h1

def demoRecordC1WithNote : HistoryItem :=
  { demoRecordC1 with
    timestamp := 11
    metadata := { demoMeta with notes := "updated" }
    variants := [{ id := "v9", url := ['y'], blob := some [8],
                   timestamp := 9 }] }

theorem put_replaces_same_id_witness :
    NodupIds [demoRecordC3] ∧ demoRecordC1.id = demoRecordC1WithNote.id ∧
    ((∀ j : HistoryItem, NodupIds (saveHistoryItem [demoRecordC3] j)) ∧
     (saveHistoryItem (saveHistoryItem [demoRecordC3] demoRecordC1)
         demoRecordC1WithNote).filter
        (fun r => r.id = demoRecordC1WithNote.id)
       = [stripItem demoRecordC1WithNote]) :=
  ⟨by decide, by decide,
   put_replaces_same_id [demoRecordC3] demoRecordC1 demoRecordC1WithNote
     (by decide) (by decide)⟩

/-- C6: `Delete` on an id absent from the store is a no-op that succeeds,
and `Delete` on a present id removes exactly that record. -/
theorem delete_idempotent_exact (s : Store) (i : String)
    (hids : NodupIds s) :
    ((∀ r ∈ s, r.id ≠ i) → deleteHistoryItem s i = s) ∧
    (∀ r ∈ s, r.id = i → deleteHistoryItem s i = s.erase r) := by
  constructor
  · intro h
    unfold deleteHistoryItem
    rw [List.filter_eq_self]
    intro x hx
    simpa using h x hx
  · intro r hr hid
    exact delete_erase s i r hids hr hid

theorem delete_idempotent_exact_witness :
    NodupIds [recATs, recBTs] ∧
    (((∀ r ∈ [recATs, recBTs], r.id ≠ "Z") →
        deleteHistoryItem [recATs, recBTs] "Z" = [recATs, recBTs]) ∧
     (∀ r ∈ [recATs, recBTs], r.id = "Z" →
        deleteHistoryItem [recATs, recBTs] "Z" = [recATs, recBTs].erase r)) :=
  ⟨by decide, delete_idempotent_exact [recATs, recBTs] "Z" (by decide)⟩

/-- C7: an import document whose top-level `items` field is missing or is
not a sequence fails with `InvalidFormat` and performs zero writes: the
store is returned unchanged. -/
theorem import_invalid_format (failAt : Nat → Bool) (s : Store) :
    importData failAt { items := ItemsField.missing } s
        = (s, Except.error StoreError.invalidFormat) ∧
    importData failAt { items := ItemsField.notArray } s
        = (s, Except.error StoreError.invalidFormat) :=
  ⟨rfl, rfl⟩

/-- C8: `Import` puts each item independently; when every write succeeds
it returns the count of imported records, and when the first failing
write is at position `j` the whole import aborts with `WriteFailed`,
keeping exactly the records committed before `j` and returning no
success count. -/
theorem import_counts_and_aborts (failAt : Nat → Bool) (l : List ExpItem)
    (s : Store) (hdec : ∀ it ∈ l, (importItem it).isSome = true) :
    ((∀ i, i < l.length → failAt i = false) →
      importData failAt { items := ItemsField.arr l } s
        = (commitImports s l, Except.ok l.length)) ∧
    (∀ j, j < l.length → failAt j = true →
      (∀ i, i < j → failAt i = false) →
      importData failAt { items := ItemsField.arr l } s
        = (commitImports s (l.take j), Except.error StoreError.writeFailed)) := by
  constructor
  · intro hok
    show importLoop failAt 0 0 l s = _
    rw [importLoop_ok failAt l 0 0 s hdec (fun i hi => by simpa using hok i hi)]
    simp
  · intro j hj hfj hbefore
    show importLoop failAt 0 0 l s = _
    exact importLoop_fail failAt l 0 0 s j hdec hj (by simpa using hfj)
      (fun i hi => by simpa using hbefore i hi)

theorem import_counts_and_aborts_witness :
    (∀ it ∈ [exportItem demoRecordC1], (importItem it).isSome = true) ∧
    (((∀ i, i < [exportItem demoRecordC1].length →
         (fun _ => false) i = false) →
       importData (fun _ => false)
           { items := ItemsField.arr [exportItem demoRecordC1] } []
         = (commitImports [] [exportItem demoRecordC1],
            Except.ok [exportItem demoRecordC1].length)) ∧
     (∀ j, j < [exportItem demoRecordC1].length →
       (fun _ => false) j = true →
       (∀ i, i < j → (fun _ => false) i = false) →
       importData (fun _ => false)
           { items := ItemsField.arr [exportItem demoRecordC1] } []
         = (commitImports [] ([exportItem demoRecordC1].take j),
            Except.error StoreError.writeFailed))) :=
  ⟨by decide,
   import_counts_and_aborts (fun _ => false) [exportItem demoRecordC1] []
     (by decide)⟩

/-- C9: tracker hygiene: `Track` is idempotent on an already-tracked
handle, `Revoke` of an untracked handle is a no-op, over any call
sequence a handle is released at most once per tracking (the number of
releases plus live trackings never exceeds the initial ones plus the
`Track` calls), and immediately after `RevokeAll` the tracked set is
empty. -/
theorem tracker_hygiene (r : UrlRegistry) (ops : List RegOp)
    (u : JSString) :
    (u ∈ r.tracked → trackUrl r u = r) ∧
    (u ∉ r.tracked → revokeUrl r u = r) ∧
    ((runOps r ops).released.count u + (runOps r ops).tracked.count u ≤
      r.released.count u + r.tracked.count u + countTracks u ops) ∧
    (runOps r (ops ++ [RegOp.revokeAll])).tracked = [] := by
  refine ⟨fun h => ?_, fun h => ?_, runOps_count_bound u ops r,
    runOps_append_revokeAll r ops⟩
  · unfold trackUrl
    rw [if_pos h]
  · unfold revokeUrl
    rw [if_neg h]

def demoRegistry : UrlRegistry :=
  { tracked := [['a'], ['b']], released := [] }

def demoOps : List RegOp :=
  [RegOp.revoke ['a'], RegOp.revoke ['a'], RegOp.track ['a'],
   RegOp.revokeAll]

theorem tracker_hygiene_witness :
    ((['a'] ∈ demoRegistry.tracked → trackUrl demoRegistry ['a'] = demoRegistry) ∧
     (['a'] ∉ demoRegistry.tracked → revokeUrl demoRegistry ['a'] = demoRegistry) ∧
     ((runOps demoRegistry demoOps).released.count ['a'] +
        (runOps demoRegistry demoOps).tracked.count ['a'] ≤
      demoRegistry.released.count ['a'] + demoRegistry.tracked.count ['a'] +
        countTracks ['a'] demoOps) ∧
     (runOps demoRegistry (demoOps ++ [RegOp.revokeAll])).tracked = []) :=
  tracker_hygiene demoRegistry demoOps ['a']

def demoHeap : JSHeap :=
  { next := 1,
    mem := fun _ => { id := "hv", url := ['b', 'l', 'o', 'b', ':', 'z'],
                      blob := some [3], timestamp := 8 } }

def demoHRecord : HRecord :=
  { id := "hr", timestamp := 30, metadata := demoMeta,
    sourceImage := Sum.inl [4], variants := [0],
    settings := demoSettings, thumbnail := none }

/-- C10: `Put` does not mutate the record passed to it: with the caller's
variant objects modelled as heap references, every referenced object —
in particular its `url` — is unchanged after the call, so the caller
still reads the same record value; the representation written to the
store is the url-stripped copy. -/
theorem put_preserves_argument (db : Store) (h : JSHeap) (r : HRecord)
    (hwf : ∀ ref ∈ r.variants, ref < h.next) :
    derefItem (saveHistoryItemRef db h r).1 r = derefItem h r ∧
    (saveHistoryItemRef db h r).2
      = putStore db (stripItem (derefItem h r)) := by
  constructor
  · unfold derefItem
    have hv : r.variants.map (saveHistoryItemRef db h r).1.mem
        = r.variants.map h.mem :=
      List.map_congr_left (fun ref href =>
        allocList_frame _ h ref (hwf ref href))
    rw [hv]
  · show putStore db _ = putStore db _
    apply congrArg
    unfold stripItem derefItem
    simp only [List.map_map]
    rfl

theorem put_preserves_argument_witness :
    (∀ ref ∈ demoHRecord.variants, ref < demoHeap.next) ∧
    (derefItem (saveHistoryItemRef [] demoHeap demoHRecord).1 demoHRecord
        = derefItem demoHeap demoHRecord ∧
     (saveHistoryItemRef [] demoHeap demoHRecord).2
        = putStore [] (stripItem (derefItem demoHeap demoHRecord))) :=
  ⟨by decide, put_preserves_argument [] demoHeap demoHRecord (by decide)⟩

end ImagePersistence
